import Mathlib

/-!
Verification of the pricing-and-decision core of the BTC-Thorp repository:
Kelly position sizing (btc/xrp/range-bot lambda functions), the normal-CDF
approximations, the volatility-scaled win-probability models, Black-Scholes
call pricing and the SOXS backtest day-one entry logic.

Rational arithmetic (`ℚ`) embeds the purely arithmetic Kelly sizer; the
transcendental pricing code (`exp`, `log`, `sqrt`, the Gaussian CDF) is
embedded over `ℝ`.
-/

open MeasureTheory ProbabilityTheory Real Set


/-- Truncation toward zero on rationals: the semantics of Python's `int()`
conversion applied to a numeric value. -/
def int_trunc (x : ℚ) : ℤ := if 0 ≤ x then ⌊x⌋ else ⌈x⌉

/-- Hard per-trade contract ceiling `MAX_CONTRACTS = 999`, shared by the BTC,
XRP and range-bot variants. -/
def MAX_CONTRACTS : ℤ := 999

/-- Kelly cap `MAX_KELLY_FRACTION = 0.25` of `btc_lambda_function.py`
(quarter Kelly). -/
def btc_MAX_KELLY_FRACTION : ℚ := 0.25

/-- Kelly cap `MAX_KELLY_FRACTION = 0.10` of `btc_range_bot.py`. -/
def rangebot_MAX_KELLY_FRACTION : ℚ := 0.10

/-- Output record of `calculate_kelly_bet`: the dict returned by the Python
function, with the contract count kept as an integer. -/
structure KellyBet where
  kelly_fraction : ℚ
  bet_amount : ℚ
  num_contracts : ℤ
  risk_dollars : ℚ
  potential_profit : ℚ

/-- Embedding of `calculate_kelly_bet(win_prob, market_no_price, bankroll,
max_kelly)` as written in `btc_range_bot.py` and `xrp_lambda_function.py`
(the XRP variant passes the remaining shared-exposure budget as `max_kelly`).
Returns `none` exactly where the Python function returns `None`. -/
def calculate_kelly_bet (win_prob market_no_price bankroll max_kelly : ℚ) :
    Option KellyBet :=
  if market_no_price ≤ 0 ∨ 100 ≤ market_no_price then none
  else
    let profit_cents := 100 - market_no_price
    let risk_cents := market_no_price
    let b := profit_cents / risk_cents
    let p := win_prob
    let q := 1 - win_prob
    let kelly_fraction := if 0 < b then (b * p - q) / b else 0
    let kelly_fraction := max 0 (min kelly_fraction max_kelly)
    let bet_amount := bankroll * kelly_fraction
    let num_contracts := int_trunc (bet_amount / (market_no_price / 100))
    let num_contracts := min num_contracts MAX_CONTRACTS
    some
      { kelly_fraction := kelly_fraction
        bet_amount := bet_amount
        num_contracts := num_contracts
        risk_dollars := (num_contracts : ℚ) * market_no_price / 100
        potential_profit := (num_contracts : ℚ) * profit_cents / 100 }

/-- Embedding of `calculate_kelly_bet(win_prob, market_no_price, bankroll)`
of `btc_lambda_function.py`: identical body, with the cap fixed to the
module constant `MAX_KELLY_FRACTION = 0.25`. -/
def btc_calculate_kelly_bet (win_prob market_no_price bankroll : ℚ) :
    Option KellyBet :=
  calculate_kelly_bet win_prob market_no_price bankroll btc_MAX_KELLY_FRACTION

/-- Polynomial factor of the Abramowitz-Stegun style normal-CDF approximation
`norm_cdf` shared by the BTC/ETH/XRP hourly bots and the BTC range bot. -/
noncomputable def normCdfPoly (t : ℝ) : ℝ :=
  0.3193815 + t * (-0.3565638 + t * (1.781478 + t * (-1.821256 + t * 1.330274)))

/-- Embedding of `norm_cdf(z)` as written in `btc_range_bot.py` (and inlined
identically in the BTC/ETH/XRP hourly lambda functions): saturates to 0 below
-6 and to 1 above 6, and otherwise evaluates the polynomial tail
approximation on `|z|`. -/
noncomputable def norm_cdf (z : ℝ) : ℝ :=
  if z < -6 then 0
  else if z > 6 then 1
  else
    let t := 1 / (1 + 0.2316419 * |z|)
    let d := 0.3989423 * Real.exp (-z * z / 2)
    let p := d * t * normCdfPoly t
    if z > 0 then 1 - p else p

/-- Upper-tail value of the approximation at a nonnegative argument `y`:
the quantity `p` computed by `norm_cdf` at `z` with `y = |z|`. -/
noncomputable def normCdfTail (y : ℝ) : ℝ :=
  0.3989423 * Real.exp (-y * y / 2) *
    (1 / (1 + 0.2316419 * y) * normCdfPoly (1 / (1 + 0.2316419 * y)))

/-- Volatility floor `MIN_VOLATILITY_PCT = 0.15` shared by
`eth_lambda_function.py` and `btc_range_bot.py`. -/
noncomputable def MIN_VOLATILITY_PCT : ℝ := 0.15

/-- Model probability cap `MAX_MODEL_PROB = 0.99` of `btc_range_bot.py`. -/
noncomputable def MAX_MODEL_PROB : ℝ := 0.99

/-- Floored and sqrt-of-time scaled volatility: lines
`vol_with_floor = max(vol_std_pct, MIN_VOLATILITY_PCT)` and
`vol_scaled = vol_with_floor * math.sqrt(minutes_to_settlement / 15)` of
`eth_lambda_function.py` (calculate_model_probability) and
`btc_range_bot.py` (calculate_range_probability). -/
noncomputable def floored_vol_scaled (vol_std_pct minutes_to_settlement : ℝ) : ℝ :=
  max vol_std_pct MIN_VOLATILITY_PCT * Real.sqrt (minutes_to_settlement / 15)

/-- Embedding of `calculate_model_probability` of `eth_lambda_function.py`:
volatility floor, sqrt-of-time scaling, z-score of the strike distance, then
the approximate normal CDF. `none` where Python returns `None`. -/
noncomputable def eth_calculate_model_probability
    (eth_price strike_price vol_std_pct minutes_to_settlement : ℝ) : Option ℝ :=
  if vol_std_pct ≤ 0 ∨ minutes_to_settlement ≤ 0 then none
  else
    let vol_scaled := floored_vol_scaled vol_std_pct minutes_to_settlement
    let price_diff_pct := (strike_price - eth_price) / eth_price * 100
    let std_devs_above := if 0 < vol_scaled then price_diff_pct / vol_scaled else 0
    some (norm_cdf std_devs_above)

/-- Embedding of `calculate_model_probability` of `btc_lambda_function.py`:
same shape as the ETH variant but with no volatility floor and no cap on the
returned probability. -/
noncomputable def btc_calculate_model_probability
    (btc_price strike_price vol_std_pct minutes_to_settlement : ℝ) : Option ℝ :=
  if vol_std_pct ≤ 0 ∨ minutes_to_settlement ≤ 0 then none
  else
    let vol_scaled := vol_std_pct * Real.sqrt (minutes_to_settlement / 15)
    let price_diff_pct := (strike_price - btc_price) / btc_price * 100
    let std_devs_above := if 0 < vol_scaled then price_diff_pct / vol_scaled else 0
    some (norm_cdf std_devs_above)

/-- Values computed by `calculate_range_probability` of `btc_range_bot.py`;
the Python function returns the tuple
`(prob_in_range, prob_no_capped, vol_scaled, z_floor, z_cap)` and
`prob_no_wins` is its named intermediate for the probability of settling
outside the range. -/
structure RangeProb where
  prob_in_range : ℝ
  prob_no_wins : ℝ
  prob_no_capped : ℝ
  vol_scaled : ℝ
  z_floor : ℝ
  z_cap : ℝ

/-- Embedding of `calculate_range_probability(btc_price, floor_strike,
cap_strike, vol_std_pct, minutes_to_settlement)` of `btc_range_bot.py`. -/
noncomputable def calculate_range_probability
    (btc_price floor_strike cap_strike vol_std_pct minutes_to_settlement : ℝ) :
    Option RangeProb :=
  if vol_std_pct ≤ 0 ∨ minutes_to_settlement ≤ 0 then none
  else
    let vol_scaled := floored_vol_scaled vol_std_pct minutes_to_settlement
    let z_floor := (floor_strike - btc_price) / btc_price * 100 / vol_scaled
    let z_cap := (cap_strike - btc_price) / btc_price * 100 / vol_scaled
    let prob_in_range := norm_cdf z_cap - norm_cdf z_floor
    let prob_no_wins := 1 - prob_in_range
    let prob_no_capped := min prob_no_wins MAX_MODEL_PROB
    some
      { prob_in_range := prob_in_range
        prob_no_wins := prob_no_wins
        prob_no_capped := prob_no_capped
        vol_scaled := vol_scaled
        z_floor := z_floor
        z_cap := z_cap }

/-- Polynomial factor of the erf-style approximation `normal_cdf` of
`dashboard_api.py` (coefficients a5..a1 in Horner form). -/
noncomputable def erfPoly (t : ℝ) : ℝ :=
  (((1.061405429 * t + -1.453152027) * t + 1.421413741) * t + -0.284496736) * t
    + 0.254829592

/-- Embedding of `normal_cdf(x)` of `dashboard_api.py`: sign split, rescale
by `sqrt 2`, then the five-coefficient polynomial approximation. -/
noncomputable def normal_cdf (x : ℝ) : ℝ :=
  let sign : ℝ := if x < 0 then -1 else 1
  let x' := |x| / Real.sqrt 2
  let t := 1 / (1 + 0.3275911 * x')
  let y := 1 - erfPoly t * t * Real.exp (-x' * x')
  0.5 * (1 + sign * y)

/-- Tail value of the dashboard approximation at a nonnegative rescaled
argument `u = |x| / sqrt 2`. -/
noncomputable def normalCdfTail (u : ℝ) : ℝ :=
  erfPoly (1 / (1 + 0.3275911 * u)) * (1 / (1 + 0.3275911 * u)) *
    Real.exp (-u * u)

/-- Fair YES probability of a range contract as computed in
`calculate_range_strikes` of `dashboard_api.py`: difference of the
approximate normal CDF at the two range boundaries. -/
noncomputable def dashboard_fair_yes
    (btc_price floor_strike cap_strike vol_scaled : ℝ) : ℝ :=
  let floor_dist := (floor_strike / btc_price - 1) * 100
  let cap_dist := (cap_strike / btc_price - 1) * 100
  let z_floor := if 0 < vol_scaled then floor_dist / vol_scaled else 0
  let z_cap := if 0 < vol_scaled then cap_dist / vol_scaled else 0
  normal_cdf z_cap - normal_cdf z_floor

/-- Fair NO probability of `calculate_range_strikes`:
`fair_no = 1 - fair_yes`. -/
noncomputable def dashboard_fair_no
    (btc_price floor_strike cap_strike vol_scaled : ℝ) : ℝ :=
  1 - dashboard_fair_yes btc_price floor_strike cap_strike vol_scaled

/-- Standard normal cumulative distribution function, the exact Gaussian CDF
computed by `scipy.stats.norm.cdf` in `soxs_short_strategy.py`. -/
noncomputable def stdNormCdf (x : ℝ) : ℝ :=
  ∫ t in Set.Iic x, gaussianPDFReal 0 1 t

/-- Embedding of `black_scholes_call(S, K, T, r, sigma)` of
`soxs_short_strategy.py`: intrinsic value at or past expiry, a 0.01
volatility floor, then the closed-form price. -/
noncomputable def black_scholes_call (S K T r sigma : ℝ) : ℝ :=
  if T ≤ 0 then max 0 (S - K)
  else
    let sigma' := if sigma ≤ 0 then 0.01 else sigma
    let d1 := (Real.log (S / K) + (r + 0.5 * sigma' ^ 2) * T) /
      (sigma' * Real.sqrt T)
    let d2 := d1 - sigma' * Real.sqrt T
    S * stdNormCdf d1 - K * Real.exp (-r * T) * stdNormCdf d2

/-- Truncation toward zero on reals: Python's `int()` conversion. -/
noncomputable def real_int_trunc (x : ℝ) : ℤ := if 0 ≤ x then ⌊x⌋ else ⌈x⌉

/-- Constant `INITIAL_CAPITAL = 10000` of `soxs_short_strategy.py`. -/
noncomputable def INITIAL_CAPITAL : ℝ := 10000

/-- Constant `RISK_FREE_RATE = 0.05` of `soxs_short_strategy.py`. -/
noncomputable def RISK_FREE_RATE : ℝ := 0.05

/-- Constant `CALL_STRIKE_PREMIUM = 1.00` of `soxs_short_strategy.py`. -/
noncomputable def CALL_STRIKE_PREMIUM : ℝ := 1.00

/-- Constant `CALL_EXPIRY_DAYS = 365` of `soxs_short_strategy.py`. -/
noncomputable def CALL_EXPIRY_DAYS : ℝ := 365

/-- Constant `LOT_SIZE = 100` of `soxs_short_strategy.py`. -/
def LOT_SIZE : ℤ := 100

/-- Constant `CASH_BUFFER_MULTIPLIER = 3.0` of `soxs_short_strategy.py`. -/
noncomputable def CASH_BUFFER_MULTIPLIER : ℝ := 3.0

/-- End-of-day state recorded by `run_backtest` for its first day: shares
shorted, cash after receiving the proceeds and paying the hedge premium,
mark-to-market short exposure, and the premium paid. The recorded
`cash_buffer_ratio` row value is `cash / short_value`. -/
structure Day1Result where
  shares_to_short : ℤ
  cash : ℝ
  short_value : ℝ
  total_premium : ℝ

/-- Embedding of the first-day path of `run_backtest` of
`soxs_short_strategy.py` (empty position list, `i = 0`): volatility floored
at 0.50, lot-rounded sizing from the buffer constraint
`N ≤ INITIAL_CAPITAL / (2 * price)`, short proceeds added to cash, one
protective call per 100 shares at twice the spot bought at its
Black-Scholes price, premium deducted from cash. -/
noncomputable def run_backtest_day1 (price raw_vol : ℝ) : Day1Result :=
  let volatility := max raw_vol 0.50
  let max_shares_for_buffer := INITIAL_CAPITAL / (2 * price)
  let lots_to_short := real_int_trunc (max_shares_for_buffer / (LOT_SIZE : ℝ))
  let shares_to_short := lots_to_short * LOT_SIZE
  if LOT_SIZE ≤ shares_to_short then
    let cash := INITIAL_CAPITAL + (shares_to_short : ℝ) * price
    let call_strike := price * (1 + CALL_STRIKE_PREMIUM)
    let t := CALL_EXPIRY_DAYS / 365
    let call_premium :=
      black_scholes_call price call_strike t RISK_FREE_RATE volatility
    let contracts_needed := lots_to_short
    let total_premium := call_premium * (contracts_needed : ℝ) * 100
    { shares_to_short := shares_to_short
      cash := cash - total_premium
      short_value := (shares_to_short : ℝ) * price
      total_premium := total_premium }
  else
    { shares_to_short := 0
      cash := INITIAL_CAPITAL
      short_value := 0
      total_premium := 0 }

/-- Odd part `t * normCdfPoly t` of the tail approximation: the function
whose monotonicity in `t` drives the monotonicity of `norm_cdf`. -/
noncomputable def Qfun (t : ℝ) : ℝ := t * normCdfPoly t

/-- Derivative of `Qfun`. -/
noncomputable def Qd (t : ℝ) : ℝ :=
  0.3193815 - 0.7131276 * t + 5.344434 * t ^ 2 - 7.285024 * t ^ 3 +
    6.65137 * t ^ 4

/-- Odd part `erfPoly t * t` of the dashboard approximation. -/
noncomputable def Q2fun (t : ℝ) : ℝ := erfPoly t * t

/-- Derivative of `Q2fun`. -/
noncomputable def Q2d (t : ℝ) : ℝ :=
  0.254829592 - 0.568993472 * t + 4.264241223 * t ^ 2 -
    5.812608108 * t ^ 3 + 5.307027145 * t ^ 4

theorem int_trunc_nonneg {x : ℚ} (hx : 0 ≤ x) : 0 ≤ int_trunc x := by
  rw [int_trunc, if_pos hx]
  exact Int.floor_nonneg.mpr hx

theorem int_trunc_le {x : ℚ} (hx : 0 ≤ x) : (int_trunc x : ℚ) ≤ x := by
  rw [int_trunc, if_pos hx]
  exact Int.floor_le x

/-- C1: for `p ∈ [0,1]`, NO price `c ∈ (0,100)` cents, nonnegative bankroll
and a nonnegative cap (`MAX_KELLY_FRACTION` or the remaining shared-exposure
budget), `calculate_kelly_bet` returns a record whose `kelly_fraction` lies
in `[0, cap]` and whose `num_contracts` is a nonnegative integer at most the
hard ceiling `MAX_CONTRACTS`. -/
theorem calculate_kelly_bet_clamped (p c bankroll cap : ℚ)
    (hp0 : 0 ≤ p) (hp1 : p ≤ 1) (hc0 : 0 < c) (hc1 : c < 100)
    (hb : 0 ≤ bankroll) (hcap : 0 ≤ cap) :
    ∃ r : KellyBet, calculate_kelly_bet p c bankroll cap = some r ∧
      0 ≤ r.kelly_fraction ∧ r.kelly_fraction ≤ cap ∧
      0 ≤ r.num_contracts ∧ r.num_contracts ≤ MAX_CONTRACTS := by
  have hguard : ¬(c ≤ 0 ∨ 100 ≤ c) := by push_neg; exact ⟨hc0, hc1⟩
  unfold calculate_kelly_bet
  rw [if_neg hguard]
  refine ⟨_, rfl, ?_, ?_, ?_, ?_⟩
  · exact le_max_left 0 _
  · exact max_le hcap (min_le_right _ cap)
  · refine le_min ?_ (by norm_num [MAX_CONTRACTS])
    refine int_trunc_nonneg ?_
    have hfrac : (0:ℚ) ≤ max 0 (min (if 0 < (100 - c) / c then
        ((100 - c) / c * p - (1 - p)) / ((100 - c) / c) else 0) cap) :=
      le_max_left 0 _
    have hbet : (0:ℚ) ≤ bankroll * max 0 (min (if 0 < (100 - c) / c then
        ((100 - c) / c * p - (1 - p)) / ((100 - c) / c) else 0) cap) :=
      mul_nonneg hb hfrac
    positivity
  · exact min_le_right _ MAX_CONTRACTS

/-- C1 witness: the spec's end-to-end Kelly scenario `p = 0.70`,
NO price 60 cents, bankroll 1000, cap 0.25. -/
theorem calculate_kelly_bet_clamped_witness :
    ∃ r : KellyBet, calculate_kelly_bet 0.7 60 1000 0.25 = some r ∧
      0 ≤ r.kelly_fraction ∧ r.kelly_fraction ≤ 0.25 ∧
      0 ≤ r.num_contracts ∧ r.num_contracts ≤ MAX_CONTRACTS :=
  calculate_kelly_bet_clamped 0.7 60 1000 0.25 (by norm_num) (by norm_num)
    (by norm_num) (by norm_num) (by norm_num) (by norm_num)

/-- C9: whenever the market NO price is at most 0 or at least 100 cents, both
Kelly variants return the "no trade" value `none` (never an exception),
for every win probability and bankroll. -/
theorem calculate_kelly_bet_no_trade (p c bankroll cap : ℚ)
    (h : c ≤ 0 ∨ 100 ≤ c) :
    calculate_kelly_bet p c bankroll cap = none ∧
      btc_calculate_kelly_bet p c bankroll = none := by
  constructor
  · unfold calculate_kelly_bet
    exact if_pos h
  · unfold btc_calculate_kelly_bet calculate_kelly_bet
    exact if_pos h

/-- C9 witness: a NO price of 0 cents (degenerate market) yields `none` in
both variants. -/
theorem calculate_kelly_bet_no_trade_witness :
    calculate_kelly_bet 0.5 0 1000 0.25 = none ∧
      btc_calculate_kelly_bet 0.5 0 1000 = none :=
  calculate_kelly_bet_no_trade 0.5 0 1000 0.25 (Or.inl le_rfl)

/-- C10: under the same valid inputs as C1, the reported
`risk_dollars = num_contracts * c / 100` never exceeds `bankroll * cap`:
the dollars committed are bounded by the capped Kelly fraction of the
bankroll. -/
theorem calculate_kelly_bet_risk_bounded (p c bankroll cap : ℚ)
    (hp0 : 0 ≤ p) (hp1 : p ≤ 1) (hc0 : 0 < c) (hc1 : c < 100)
    (hb : 0 ≤ bankroll) (hcap : 0 ≤ cap) :
    ∃ r : KellyBet, calculate_kelly_bet p c bankroll cap = some r ∧
      r.risk_dollars ≤ bankroll * cap := by
  have hguard : ¬(c ≤ 0 ∨ 100 ≤ c) := by push_neg; exact ⟨hc0, hc1⟩
  unfold calculate_kelly_bet
  rw [if_neg hguard]
  refine ⟨_, rfl, ?_⟩
  set kf : ℚ := max 0 (min (if 0 < (100 - c) / c then
      ((100 - c) / c * p - (1 - p)) / ((100 - c) / c) else 0) cap) with hkf
  have hkf0 : 0 ≤ kf := le_max_left 0 _
  have hkfcap : kf ≤ cap := max_le hcap (min_le_right _ cap)
  have hbet0 : 0 ≤ bankroll * kf := mul_nonneg hb hkf0
  have hc100 : (0:ℚ) < c / 100 := by positivity
  have harg : 0 ≤ bankroll * kf / (c / 100) := by positivity
  have htr : (int_trunc (bankroll * kf / (c / 100)) : ℚ) ≤
      bankroll * kf / (c / 100) := int_trunc_le harg
  have hmin : ((min (int_trunc (bankroll * kf / (c / 100))) MAX_CONTRACTS : ℤ) : ℚ) ≤
      bankroll * kf / (c / 100) := by
    refine le_trans ?_ htr
    exact_mod_cast min_le_left _ MAX_CONTRACTS
  show ((min (int_trunc (bankroll * kf / (c / 100))) MAX_CONTRACTS : ℤ) : ℚ) * c / 100 ≤
      bankroll * cap
  have hstep : ((min (int_trunc (bankroll * kf / (c / 100))) MAX_CONTRACTS : ℤ) : ℚ) * (c / 100) ≤
      bankroll * kf / (c / 100) * (c / 100) :=
    mul_le_mul_of_nonneg_right hmin (le_of_lt hc100)
  have hcancel : bankroll * kf / (c / 100) * (c / 100) = bankroll * kf :=
    div_mul_cancel₀ _ (ne_of_gt hc100)
  calc ((min (int_trunc (bankroll * kf / (c / 100))) MAX_CONTRACTS : ℤ) : ℚ) * c / 100
      = ((min (int_trunc (bankroll * kf / (c / 100))) MAX_CONTRACTS : ℤ) : ℚ) * (c / 100) := by
        ring
    _ ≤ bankroll * kf / (c / 100) * (c / 100) := hstep
    _ = bankroll * kf := hcancel
    _ ≤ bankroll * cap := mul_le_mul_of_nonneg_left hkfcap hb

/-- C10 witness: the risk bound instantiated at the spec's Kelly scenario. -/
theorem calculate_kelly_bet_risk_bounded_witness :
    ∃ r : KellyBet, calculate_kelly_bet 0.7 60 1000 0.25 = some r ∧
      r.risk_dollars ≤ 1000 * 0.25 :=
  calculate_kelly_bet_risk_bounded 0.7 60 1000 0.25 (by norm_num) (by norm_num)
    (by norm_num) (by norm_num) (by norm_num) (by norm_num)

/-- C7: for positive measured volatility and horizon, the scaled volatility
used by the ETH hourly model and the BTC range model equals
`raw_vol * sqrt(target/15)` when `raw_vol` is at least the 0.15 floor, and
`0.15 * sqrt(target/15)` otherwise; `calculate_range_probability` reports
exactly this value as its `vol_scaled` output. -/
theorem floored_vol_scaled_correct (raw m : ℝ) (hraw : 0 < raw) (hm : 0 < m) :
    (MIN_VOLATILITY_PCT ≤ raw →
      floored_vol_scaled raw m = raw * Real.sqrt (m / 15)) ∧
    (raw < MIN_VOLATILITY_PCT →
      floored_vol_scaled raw m = MIN_VOLATILITY_PCT * Real.sqrt (m / 15)) ∧
    ∀ price fs cs : ℝ, ∃ r : RangeProb,
      calculate_range_probability price fs cs raw m = some r ∧
      r.vol_scaled = floored_vol_scaled raw m := by
  refine ⟨?_, ?_, ?_⟩
  · intro h
    unfold floored_vol_scaled
    rw [max_eq_left h]
  · intro h
    unfold floored_vol_scaled
    rw [max_eq_right (le_of_lt h)]
  · intro price fs cs
    have hguard : ¬(raw ≤ 0 ∨ m ≤ 0) := by push_neg; exact ⟨hraw, hm⟩
    unfold calculate_range_probability
    rw [if_neg hguard]
    exact ⟨_, rfl, rfl⟩

/-- C7 witness: raw volatility 0.2 above the floor scales directly; raw
volatility 0.1 below the floor is replaced by the 0.15 floor. -/
theorem floored_vol_scaled_correct_witness :
    floored_vol_scaled 0.2 60 = 0.2 * Real.sqrt (60 / 15) ∧
      floored_vol_scaled 0.1 60 = MIN_VOLATILITY_PCT * Real.sqrt (60 / 15) :=
  ⟨(floored_vol_scaled_correct 0.2 60 (by norm_num) (by norm_num)).1
      (by norm_num [MIN_VOLATILITY_PCT]),
   (floored_vol_scaled_correct 0.1 60 (by norm_num) (by norm_num)).2.1
      (by norm_num [MIN_VOLATILITY_PCT])⟩

/-- C5: the range model's probability of settling inside the range and its
probability of settling outside the range sum to exactly 1, both in
`calculate_range_probability` of `btc_range_bot.py` (fields `prob_in_range`
and `prob_no_wins`) and in the dashboard's `fair_yes`/`fair_no` pair. -/
theorem range_prob_complementarity (price fs cs vol m dvol : ℝ)
    (hvol : 0 < vol) (hm : 0 < m) :
    (∃ r : RangeProb, calculate_range_probability price fs cs vol m = some r ∧
      r.prob_in_range + r.prob_no_wins = 1) ∧
    dashboard_fair_yes price fs cs dvol +
      dashboard_fair_no price fs cs dvol = 1 := by
  constructor
  · have hguard : ¬(vol ≤ 0 ∨ m ≤ 0) := by push_neg; exact ⟨hvol, hm⟩
    unfold calculate_range_probability
    rw [if_neg hguard]
    refine ⟨_, rfl, ?_⟩
    dsimp only
    ring
  · unfold dashboard_fair_no
    ring

/-- C5 witness: complementarity at spot 100000, range [99000, 101000],
volatility 0.3 percent, 30 minutes to settlement. -/
theorem range_prob_complementarity_witness :
    (∃ r : RangeProb,
      calculate_range_probability 100000 99000 101000 0.3 30 = some r ∧
      r.prob_in_range + r.prob_no_wins = 1) ∧
    dashboard_fair_yes 100000 99000 101000 0.3 +
      dashboard_fair_no 100000 99000 101000 0.3 = 1 :=
  range_prob_complementarity 100000 99000 101000 0.3 30 0.3
    (by norm_num) (by norm_num)

/-- C6 (amended): the range model of `btc_range_bot.py` caps the NO
win-probability it returns at `MAX_MODEL_PROB = 0.99`. -/
theorem rangebot_prob_no_capped_le (price fs cs vol m : ℝ)
    (hvol : 0 < vol) (hm : 0 < m) :
    ∃ r : RangeProb, calculate_range_probability price fs cs vol m = some r ∧
      r.prob_no_capped ≤ MAX_MODEL_PROB := by
  have hguard : ¬(vol ≤ 0 ∨ m ≤ 0) := by push_neg; exact ⟨hvol, hm⟩
  unfold calculate_range_probability
  rw [if_neg hguard]
  exact ⟨_, rfl, min_le_right _ _⟩

/-- C6 witness: the cap holds at a concrete range-model input. -/
theorem rangebot_prob_no_capped_le_witness :
    ∃ r : RangeProb,
      calculate_range_probability 100000 99000 101000 0.3 30 = some r ∧
      r.prob_no_capped ≤ MAX_MODEL_PROB :=
  rangebot_prob_no_capped_le 100000 99000 101000 0.3 30
    (by norm_num) (by norm_num)

/-- C6 counterexample: the hourly barrier model of `btc_lambda_function.py`
does not cap its returned probability: with the strike 100 percent above
spot and volatility 0.15 percent over 15 minutes it returns exactly 1,
which exceeds the claimed maximum of 0.99. -/
theorem btc_model_prob_exceeds_cap :
    btc_calculate_model_probability 100000 200000 0.15 15 = some 1 ∧
      MAX_MODEL_PROB < 1 := by
  constructor
  · norm_num [btc_calculate_model_probability, norm_cdf, Real.sqrt_one]
  · norm_num [MAX_MODEL_PROB]

theorem stdNormCdf_nonneg (x : ℝ) : 0 ≤ stdNormCdf x :=
  setIntegral_nonneg measurableSet_Iic fun t _ => gaussianPDFReal_nonneg 0 1 t

theorem stdNormCdf_le_one (x : ℝ) : stdNormCdf x ≤ 1 := by
  have h : stdNormCdf x ≤ ∫ t, gaussianPDFReal 0 1 t :=
    setIntegral_le_integral (integrable_gaussianPDFReal 0 1)
      (ae_of_all _ (gaussianPDFReal_nonneg 0 1))
  rwa [integral_gaussianPDFReal_eq_one 0 one_ne_zero] at h

theorem stdNormCdf_shift (x c : ℝ) :
    ∫ u in Set.Iic x, gaussianPDFReal 0 1 (u + c) = stdNormCdf (x + c) := by
  have hmp : MeasurePreserving (fun u : ℝ => u + c) volume volume :=
    measurePreserving_add_right volume c
  have hemb : MeasurableEmbedding (fun u : ℝ => u + c) :=
    measurableEmbedding_addRight c
  have hpre : Set.preimage (fun u : ℝ => u + c) (Set.Iic (x + c)) =
      Set.Iic x := by
    ext u
    simp [Set.mem_Iic]
  calc ∫ u in Set.Iic x, gaussianPDFReal 0 1 (u + c)
      = ∫ u in Set.preimage (fun u : ℝ => u + c) (Set.Iic (x + c)),
          gaussianPDFReal 0 1 (u + c) := by rw [hpre]
    _ = ∫ t in Set.Iic (x + c), gaussianPDFReal 0 1 t :=
        hmp.setIntegral_preimage_emb hemb _ _

/-- C2: at (or past) expiry the Black-Scholes routine returns exactly the
intrinsic value `max 0 (S - K)`, for every spot, strike, rate and
volatility. -/
theorem black_scholes_call_expiry (S K T r sigma : ℝ) (hT : T ≤ 0) :
    black_scholes_call S K T r sigma = max 0 (S - K) := by
  unfold black_scholes_call
  rw [if_pos hT]

/-- C2 witness: with `T = 0`, spot 105 and strike 100 the price is the
intrinsic value 5. -/
theorem black_scholes_call_expiry_witness :
    black_scholes_call 105 100 0 0.05 0.8 = 5 := by
  rw [black_scholes_call_expiry 105 100 0 0.05 0.8 le_rfl]
  norm_num

theorem gaussianPDFReal_std (u : ℝ) :
    gaussianPDFReal 0 1 u = (Real.sqrt (2 * π))⁻¹ * Real.exp (-u ^ 2 / 2) := by
  simp [gaussianPDFReal]

theorem bs_d2_mul (S K T r sigma : ℝ) (hT : 0 < T) (hs : 0 < sigma) :
    ((Real.log (S / K) + (r + 0.5 * sigma ^ 2) * T) / (sigma * Real.sqrt T) -
        sigma * Real.sqrt T) * (sigma * Real.sqrt T) =
      Real.log (S / K) + r * T - 0.5 * sigma ^ 2 * T := by
  have hrt : 0 < Real.sqrt T := Real.sqrt_pos.mpr hT
  have hs0 : (0:ℝ) < sigma * Real.sqrt T := mul_pos hs hrt
  have hsq : Real.sqrt T ^ 2 = T := Real.sq_sqrt hT.le
  have h2 : sigma * Real.sqrt T * (sigma * Real.sqrt T) = sigma ^ 2 * T := by
    rw [mul_mul_mul_comm, ← sq, ← sq, hsq]
  rw [sub_mul, div_mul_cancel₀ _ (ne_of_gt hs0), h2]
  ring

theorem bs_pointwise (S K T r sigma : ℝ) (hS : 0 < S) (hK : 0 < K)
    (hT : 0 < T) (hs : 0 < sigma) (u : ℝ)
    (hu : u ≤ (Real.log (S / K) + (r + 0.5 * sigma ^ 2) * T) /
      (sigma * Real.sqrt T) - sigma * Real.sqrt T) :
    K * Real.exp (-r * T) * gaussianPDFReal 0 1 u ≤
      S * gaussianPDFReal 0 1 (u + sigma * Real.sqrt T) := by
  have hrt : 0 < Real.sqrt T := Real.sqrt_pos.mpr hT
  have hs0 : (0:ℝ) < sigma * Real.sqrt T := mul_pos hs hrt
  have hsq : Real.sqrt T ^ 2 = T := Real.sq_sqrt hT.le
  have hlog : Real.log (S / K) = Real.log S - Real.log K :=
    Real.log_div (ne_of_gt hS) (ne_of_gt hK)
  have hmul : u * (sigma * Real.sqrt T) ≤
      Real.log (S / K) + r * T - 0.5 * sigma ^ 2 * T := by
    have h := mul_le_mul_of_nonneg_right hu hs0.le
    rwa [bs_d2_mul S K T r sigma hT hs] at h
  have hexpand : (u + sigma * Real.sqrt T) ^ 2 =
      u ^ 2 + 2 * (u * (sigma * Real.sqrt T)) + sigma ^ 2 * T := by
    rw [add_sq, mul_pow, hsq]
    ring
  have hexp : Real.log K + -r * T + -u ^ 2 / 2 ≤
      Real.log S + -(u + sigma * Real.sqrt T) ^ 2 / 2 := by
    rw [hexpand]
    rw [hlog] at hmul
    linarith
  have hinner : K * Real.exp (-r * T) * Real.exp (-u ^ 2 / 2) ≤
      S * Real.exp (-(u + sigma * Real.sqrt T) ^ 2 / 2) := by
    have hKe : K * Real.exp (-r * T) * Real.exp (-u ^ 2 / 2) =
        Real.exp (Real.log K + -r * T + -u ^ 2 / 2) := by
      rw [Real.exp_add, Real.exp_add, Real.exp_log hK]
    have hSe : S * Real.exp (-(u + sigma * Real.sqrt T) ^ 2 / 2) =
        Real.exp (Real.log S + -(u + sigma * Real.sqrt T) ^ 2 / 2) := by
      rw [Real.exp_add, Real.exp_log hS]
    rw [hKe, hSe]
    exact Real.exp_le_exp.mpr hexp
  have hc : (0:ℝ) ≤ (Real.sqrt (2 * π))⁻¹ :=
    inv_nonneg.mpr (Real.sqrt_nonneg _)
  calc K * Real.exp (-r * T) * gaussianPDFReal 0 1 u
      = (Real.sqrt (2 * π))⁻¹ * (K * Real.exp (-r * T) * Real.exp (-u ^ 2 / 2)) := by
        rw [gaussianPDFReal_std]; ring
    _ ≤ (Real.sqrt (2 * π))⁻¹ *
        (S * Real.exp (-(u + sigma * Real.sqrt T) ^ 2 / 2)) :=
        mul_le_mul_of_nonneg_left hinner hc
    _ = S * gaussianPDFReal 0 1 (u + sigma * Real.sqrt T) := by
        rw [gaussianPDFReal_std]; ring

theorem bs_pointwise_strict (S K T r sigma : ℝ) (hS : 0 < S) (hK : 0 < K)
    (hT : 0 < T) (hs : 0 < sigma) (u : ℝ)
    (hu : u < (Real.log (S / K) + (r + 0.5 * sigma ^ 2) * T) /
      (sigma * Real.sqrt T) - sigma * Real.sqrt T) :
    K * Real.exp (-r * T) * gaussianPDFReal 0 1 u <
      S * gaussianPDFReal 0 1 (u + sigma * Real.sqrt T) := by
  have hrt : 0 < Real.sqrt T := Real.sqrt_pos.mpr hT
  have hs0 : (0:ℝ) < sigma * Real.sqrt T := mul_pos hs hrt
  have hsq : Real.sqrt T ^ 2 = T := Real.sq_sqrt hT.le
  have hlog : Real.log (S / K) = Real.log S - Real.log K :=
    Real.log_div (ne_of_gt hS) (ne_of_gt hK)
  have hmul : u * (sigma * Real.sqrt T) <
      Real.log (S / K) + r * T - 0.5 * sigma ^ 2 * T := by
    have h := mul_lt_mul_of_pos_right hu hs0
    rwa [bs_d2_mul S K T r sigma hT hs] at h
  have hexpand : (u + sigma * Real.sqrt T) ^ 2 =
      u ^ 2 + 2 * (u * (sigma * Real.sqrt T)) + sigma ^ 2 * T := by
    rw [add_sq, mul_pow, hsq]
    ring
  have hexp : Real.log K + -r * T + -u ^ 2 / 2 <
      Real.log S + -(u + sigma * Real.sqrt T) ^ 2 / 2 := by
    rw [hexpand]
    rw [hlog] at hmul
    linarith
  have hinner : K * Real.exp (-r * T) * Real.exp (-u ^ 2 / 2) <
      S * Real.exp (-(u + sigma * Real.sqrt T) ^ 2 / 2) := by
    have hKe : K * Real.exp (-r * T) * Real.exp (-u ^ 2 / 2) =
        Real.exp (Real.log K + -r * T + -u ^ 2 / 2) := by
      rw [Real.exp_add, Real.exp_add, Real.exp_log hK]
    have hSe : S * Real.exp (-(u + sigma * Real.sqrt T) ^ 2 / 2) =
        Real.exp (Real.log S + -(u + sigma * Real.sqrt T) ^ 2 / 2) := by
      rw [Real.exp_add, Real.exp_log hS]
    rw [hKe, hSe]
    exact Real.exp_lt_exp.mpr hexp
  have hc : (0:ℝ) < (Real.sqrt (2 * π))⁻¹ := by
    have : (0:ℝ) < Real.sqrt (2 * π) := Real.sqrt_pos.mpr (by positivity)
    exact inv_pos.mpr this
  calc K * Real.exp (-r * T) * gaussianPDFReal 0 1 u
      = (Real.sqrt (2 * π))⁻¹ * (K * Real.exp (-r * T) * Real.exp (-u ^ 2 / 2)) := by
        rw [gaussianPDFReal_std]; ring
    _ < (Real.sqrt (2 * π))⁻¹ *
        (S * Real.exp (-(u + sigma * Real.sqrt T) ^ 2 / 2)) :=
        mul_lt_mul_of_pos_left hinner hc
    _ = S * gaussianPDFReal 0 1 (u + sigma * Real.sqrt T) := by
        rw [gaussianPDFReal_std]; ring

theorem bs_key (S K T r sigma : ℝ) (hS : 0 < S) (hK : 0 < K)
    (hT : 0 < T) (hs : 0 < sigma) :
    K * Real.exp (-r * T) *
        stdNormCdf ((Real.log (S / K) + (r + 0.5 * sigma ^ 2) * T) /
          (sigma * Real.sqrt T) - sigma * Real.sqrt T) ≤
      S * stdNormCdf ((Real.log (S / K) + (r + 0.5 * sigma ^ 2) * T) /
        (sigma * Real.sqrt T)) := by
  set d2 : ℝ := (Real.log (S / K) + (r + 0.5 * sigma ^ 2) * T) /
    (sigma * Real.sqrt T) - sigma * Real.sqrt T with hd2
  have hd1 : (Real.log (S / K) + (r + 0.5 * sigma ^ 2) * T) /
      (sigma * Real.sqrt T) = d2 + sigma * Real.sqrt T := by
    rw [hd2]; ring
  rw [hd1, ← stdNormCdf_shift d2 (sigma * Real.sqrt T)]
  unfold stdNormCdf
  rw [← integral_mul_left, ← integral_mul_left]
  refine setIntegral_mono_on ?_ ?_ measurableSet_Iic ?_
  · exact ((integrable_gaussianPDFReal 0 1).const_mul _).integrableOn
  · exact (((integrable_gaussianPDFReal 0 1).comp_add_right
      (sigma * Real.sqrt T)).const_mul S).integrableOn
  · intro u hu
    exact bs_pointwise S K T r sigma hS hK hT hs u hu

/-- C3: for positive spot, strike, volatility and time to expiry, the
Black-Scholes call price lies between 0 and the spot price. -/
theorem black_scholes_call_bounds (S K T r sigma : ℝ)
    (hS : 0 < S) (hK : 0 < K) (hT : 0 < T) (hs : 0 < sigma) :
    0 ≤ black_scholes_call S K T r sigma ∧
      black_scholes_call S K T r sigma ≤ S := by
  have hTn : ¬T ≤ 0 := not_le.mpr hT
  have hsn : ¬sigma ≤ 0 := not_le.mpr hs
  unfold black_scholes_call
  rw [if_neg hTn, if_neg hsn]
  constructor
  · exact sub_nonneg.mpr (bs_key S K T r sigma hS hK hT hs)
  · have h1 : S * stdNormCdf ((Real.log (S / K) + (r + 0.5 * sigma ^ 2) * T) /
        (sigma * Real.sqrt T)) -
        K * Real.exp (-r * T) *
          stdNormCdf ((Real.log (S / K) + (r + 0.5 * sigma ^ 2) * T) /
            (sigma * Real.sqrt T) - sigma * Real.sqrt T) ≤
        S * stdNormCdf ((Real.log (S / K) + (r + 0.5 * sigma ^ 2) * T) /
          (sigma * Real.sqrt T)) :=
      sub_le_self _ (mul_nonneg (mul_nonneg hK.le (Real.exp_pos _).le)
        (stdNormCdf_nonneg _))
    refine le_trans h1 ?_
    exact mul_le_of_le_one_right hS.le (stdNormCdf_le_one _)

/-- C3 witness: the spec's deep out-of-the-money scenario, spot 100,
strike 200, volatility 0.80, one year to expiry, rate 0.05. -/
theorem black_scholes_call_bounds_witness :
    0 ≤ black_scholes_call 100 200 1 0.05 0.8 ∧
      black_scholes_call 100 200 1 0.05 0.8 ≤ 100 :=
  black_scholes_call_bounds 100 200 1 0.05 0.8 (by norm_num) (by norm_num)
    (by norm_num) (by norm_num)

theorem bs_key_strict (S K T r sigma : ℝ) (hS : 0 < S) (hK : 0 < K)
    (hT : 0 < T) (hs : 0 < sigma) :
    K * Real.exp (-r * T) *
        stdNormCdf ((Real.log (S / K) + (r + 0.5 * sigma ^ 2) * T) /
          (sigma * Real.sqrt T) - sigma * Real.sqrt T) <
      S * stdNormCdf ((Real.log (S / K) + (r + 0.5 * sigma ^ 2) * T) /
        (sigma * Real.sqrt T)) := by
  set d2 : ℝ := (Real.log (S / K) + (r + 0.5 * sigma ^ 2) * T) /
    (sigma * Real.sqrt T) - sigma * Real.sqrt T with hd2
  have hd1 : (Real.log (S / K) + (r + 0.5 * sigma ^ 2) * T) /
      (sigma * Real.sqrt T) = d2 + sigma * Real.sqrt T := by
    rw [hd2]; ring
  rw [hd1, ← stdNormCdf_shift d2 (sigma * Real.sqrt T)]
  unfold stdNormCdf
  rw [← integral_mul_left, ← integral_mul_left]
  have hintK : IntegrableOn
      (fun u => K * Real.exp (-r * T) * gaussianPDFReal 0 1 u)
      (Set.Iic d2) volume :=
    ((integrable_gaussianPDFReal 0 1).const_mul _).integrableOn
  have hintS : IntegrableOn
      (fun u => S * gaussianPDFReal 0 1 (u + sigma * Real.sqrt T))
      (Set.Iic d2) volume :=
    (((integrable_gaussianPDFReal 0 1).comp_add_right
      (sigma * Real.sqrt T)).const_mul S).integrableOn
  rw [← sub_pos, ← integral_sub hintS hintK]
  refine (setIntegral_pos_iff_support_of_nonneg_ae ?_ ?_).mpr ?_
  · refine (ae_restrict_iff' measurableSet_Iic).mpr (ae_of_all _ ?_)
    intro u hu
    exact sub_nonneg.mpr (bs_pointwise S K T r sigma hS hK hT hs u hu)
  · exact hintS.sub hintK
  · have hsub : Set.Iio d2 ⊆ Function.support
        (fun u => S * gaussianPDFReal 0 1 (u + sigma * Real.sqrt T) -
          K * Real.exp (-r * T) * gaussianPDFReal 0 1 u) ∩ Set.Iic d2 := by
      intro u hu
      have hu' : u < d2 := hu
      refine ⟨?_, Set.mem_Iic.mpr (le_of_lt hu')⟩
      exact ne_of_gt (sub_pos.mpr
        (bs_pointwise_strict S K T r sigma hS hK hT hs u hu'))
    calc (0 : ENNReal) < volume (Set.Iio d2) := by
          rw [Real.volume_Iio]; exact ENNReal.zero_lt_top
      _ ≤ _ := measure_mono hsub

theorem black_scholes_call_pos (S K T r sigma : ℝ)
    (hS : 0 < S) (hK : 0 < K) (hT : 0 < T) (hs : 0 < sigma) :
    0 < black_scholes_call S K T r sigma := by
  unfold black_scholes_call
  rw [if_neg (not_le.mpr hT), if_neg (not_le.mpr hs)]
  exact sub_pos.mpr (bs_key_strict S K T r sigma hS hK hT hs)

/-- C8: on the backtest's first day at price 50 with capital 10000 the code
shorts exactly 100 shares (lot-rounded), but the cash buffer ratio
`cash / short_value` recorded for the entry day is strictly below the
required multiplier 3.0 for every input volatility, because the call
premium is deducted from cash after the position is sized on the
pre-premium constraint. -/
theorem run_backtest_day1_buffer (raw_vol : ℝ) :
    (run_backtest_day1 50 raw_vol).shares_to_short = 100 ∧
      (run_backtest_day1 50 raw_vol).cash /
        (run_backtest_day1 50 raw_vol).short_value < CASH_BUFFER_MULTIPLIER := by
  have hvol : (0:ℝ) < max raw_vol 0.50 :=
    lt_of_lt_of_le (by norm_num) (le_max_right _ _)
  have hbs : 0 < black_scholes_call 50 (50 * (1 + CALL_STRIKE_PREMIUM))
      (CALL_EXPIRY_DAYS / 365) RISK_FREE_RATE (max raw_vol 0.50) := by
    have h1 : (50:ℝ) * (1 + CALL_STRIKE_PREMIUM) = 100 := by
      norm_num [CALL_STRIKE_PREMIUM]
    have h2 : CALL_EXPIRY_DAYS / 365 = (1:ℝ) := by norm_num [CALL_EXPIRY_DAYS]
    rw [h1, h2]
    exact black_scholes_call_pos 50 100 1 RISK_FREE_RATE (max raw_vol 0.50)
      (by norm_num) (by norm_num) (by norm_num) hvol
  have hlots : real_int_trunc (INITIAL_CAPITAL / (2 * (50:ℝ)) / (LOT_SIZE : ℝ)) = 1 := by
    have : INITIAL_CAPITAL / (2 * (50:ℝ)) / (LOT_SIZE : ℝ) = 1 := by
      norm_num [INITIAL_CAPITAL, LOT_SIZE]
    rw [this, real_int_trunc, if_pos (by norm_num)]
    norm_num
  simp only [run_backtest_day1]
  rw [hlots]
  rw [if_pos (by norm_num [LOT_SIZE])]
  constructor
  · norm_num [LOT_SIZE]
  · dsimp only
    have hsv : ((1 * LOT_SIZE : ℤ) : ℝ) * 50 = 5000 := by norm_num [LOT_SIZE]
    rw [hsv]
    rw [div_lt_iff₀ (by norm_num : (0:ℝ) < 5000)]
    push_cast
    norm_num [INITIAL_CAPITAL, CASH_BUFFER_MULTIPLIER]
    linarith [hbs]

theorem normCdfPoly_pos (t : ℝ) : 0 < normCdfPoly t := by
  unfold normCdfPoly
  nlinarith [sq_nonneg (t * (2.660548 * t - 1.821256)),
    sq_nonneg (2.162956 * t - 0.3565638), sq_nonneg t]

theorem Qd_pos (t : ℝ) : 0 < Qd t := by
  unfold Qd
  nlinarith [sq_nonneg (t * (13.30274 * t - 7.285024)),
    sq_nonneg (6.688868 * t - 0.7131276), sq_nonneg t]

theorem Qfun_hasDerivAt (t : ℝ) : HasDerivAt Qfun (Qd t) t := by
  have h2 : HasDerivAt (fun x : ℝ => x ^ 2) (2 * t) t := by
    simpa using hasDerivAt_pow 2 t
  have h3 : HasDerivAt (fun x : ℝ => x ^ 3) (3 * t ^ 2) t := by
    simpa using hasDerivAt_pow 3 t
  have h4 : HasDerivAt (fun x : ℝ => x ^ 4) (4 * t ^ 3) t := by
    simpa using hasDerivAt_pow 4 t
  have h5 : HasDerivAt (fun x : ℝ => x ^ 5) (5 * t ^ 4) t := by
    simpa using hasDerivAt_pow 5 t
  have h1 : HasDerivAt (fun x : ℝ => x) 1 t := hasDerivAt_id t
  have hsum :
      HasDerivAt (fun x : ℝ => 0.3193815 * x + -0.3565638 * x ^ 2 +
        1.781478 * x ^ 3 + -1.821256 * x ^ 4 + 1.330274 * x ^ 5)
      (0.3193815 * 1 + -0.3565638 * (2 * t) + 1.781478 * (3 * t ^ 2) +
        -1.821256 * (4 * t ^ 3) + 1.330274 * (5 * t ^ 4)) t :=
    ((((h1.const_mul (0.3193815:ℝ)).add (h2.const_mul (-0.3565638:ℝ))).add
      (h3.const_mul (1.781478:ℝ))).add (h4.const_mul (-1.821256:ℝ))).add
      (h5.const_mul (1.330274:ℝ))
  have hfun : Qfun = fun x : ℝ => 0.3193815 * x + -0.3565638 * x ^ 2 +
      1.781478 * x ^ 3 + -1.821256 * x ^ 4 + 1.330274 * x ^ 5 := by
    funext x
    unfold Qfun normCdfPoly
    ring
  have hval : Qd t = 0.3193815 * 1 + -0.3565638 * (2 * t) +
      1.781478 * (3 * t ^ 2) + -1.821256 * (4 * t ^ 3) +
      1.330274 * (5 * t ^ 4) := by
    unfold Qd
    ring
  rw [hfun, hval]
  exact hsum

theorem Qfun_strictMono : StrictMono Qfun :=
  strictMono_of_hasDerivAt_pos Qfun_hasDerivAt Qd_pos

theorem normCdfTail_eq_Qfun (y : ℝ) :
    normCdfTail y = 0.3989423 * Real.exp (-y * y / 2) *
      Qfun (1 / (1 + 0.2316419 * y)) := rfl

theorem normCdfTail_pos (y : ℝ) (hy : 0 ≤ y) : 0 < normCdfTail y := by
  rw [normCdfTail_eq_Qfun]
  have hden : (0:ℝ) < 1 + 0.2316419 * y := by nlinarith
  have hQ : 0 < Qfun (1 / (1 + 0.2316419 * y)) :=
    mul_pos (one_div_pos.mpr hden) (normCdfPoly_pos _)
  exact mul_pos (mul_pos (by norm_num) (Real.exp_pos _)) hQ

theorem normCdfTail_anti {y1 y2 : ℝ} (h0 : 0 ≤ y1) (h12 : y1 ≤ y2) :
    normCdfTail y2 ≤ normCdfTail y1 := by
  rw [normCdfTail_eq_Qfun, normCdfTail_eq_Qfun]
  have hden1 : (0:ℝ) < 1 + 0.2316419 * y1 := by nlinarith
  have hden2 : (0:ℝ) < 1 + 0.2316419 * y2 := by nlinarith
  have htle : 1 / (1 + 0.2316419 * y2) ≤ 1 / (1 + 0.2316419 * y1) :=
    one_div_le_one_div_of_le hden1 (by nlinarith)
  have hQle : Qfun (1 / (1 + 0.2316419 * y2)) ≤
      Qfun (1 / (1 + 0.2316419 * y1)) := Qfun_strictMono.monotone htle
  have hQ2 : 0 ≤ Qfun (1 / (1 + 0.2316419 * y2)) :=
    (mul_pos (one_div_pos.mpr hden2) (normCdfPoly_pos _)).le
  have hE : Real.exp (-y2 * y2 / 2) ≤ Real.exp (-y1 * y1 / 2) := by
    apply Real.exp_le_exp.mpr
    nlinarith
  have hmul : Real.exp (-y2 * y2 / 2) * Qfun (1 / (1 + 0.2316419 * y2)) ≤
      Real.exp (-y1 * y1 / 2) * Qfun (1 / (1 + 0.2316419 * y1)) :=
    mul_le_mul hE hQle hQ2 (Real.exp_pos _).le
  calc 0.3989423 * Real.exp (-y2 * y2 / 2) * Qfun (1 / (1 + 0.2316419 * y2))
      = 0.3989423 * (Real.exp (-y2 * y2 / 2) *
          Qfun (1 / (1 + 0.2316419 * y2))) := by ring
    _ ≤ 0.3989423 * (Real.exp (-y1 * y1 / 2) *
          Qfun (1 / (1 + 0.2316419 * y1))) :=
        mul_le_mul_of_nonneg_left hmul (by norm_num)
    _ = 0.3989423 * Real.exp (-y1 * y1 / 2) *
          Qfun (1 / (1 + 0.2316419 * y1)) := by ring

theorem normCdfTail_zero : normCdfTail 0 = 0.3989423 * normCdfPoly 1 := by
  unfold normCdfTail
  norm_num

theorem normCdfTail_zero_lt_half : normCdfTail 0 < 1 / 2 := by
  rw [normCdfTail_zero]
  unfold normCdfPoly
  norm_num

theorem normCdfTail_le_tail_zero {y : ℝ} (hy : 0 ≤ y) :
    normCdfTail y ≤ normCdfTail 0 :=
  normCdfTail_anti le_rfl hy

theorem norm_cdf_eq_branch {z : ℝ} (h1 : ¬z < -6) (h2 : ¬z > 6) :
    norm_cdf z = if z > 0 then 1 - normCdfTail z else normCdfTail (-z) := by
  simp only [norm_cdf, if_neg h1, if_neg h2]
  by_cases hz : z > 0
  · rw [if_pos hz, if_pos hz, abs_of_pos hz]
    unfold normCdfTail
    ring
  · rw [if_neg hz, if_neg hz, abs_of_nonpos (not_lt.mp hz)]
    unfold normCdfTail
    have harg : -(-z) * -z / 2 = -z * z / 2 := by ring
    rw [harg]
    ring

theorem norm_cdf_nonneg (z : ℝ) : 0 ≤ norm_cdf z := by
  by_cases h1 : z < -6
  · unfold norm_cdf
    rw [if_pos h1]
  · by_cases h2 : z > 6
    · unfold norm_cdf
      rw [if_neg h1, if_pos h2]
      norm_num
    · rw [norm_cdf_eq_branch h1 h2]
      by_cases hz : z > 0
      · rw [if_pos hz]
        have ht := normCdfTail_le_tail_zero (le_of_lt hz)
        have th := normCdfTail_zero_lt_half
        linarith
      · rw [if_neg hz]
        exact (normCdfTail_pos (-z) (by linarith [not_lt.mp hz])).le

theorem norm_cdf_le_one (z : ℝ) : norm_cdf z ≤ 1 := by
  by_cases h1 : z < -6
  · unfold norm_cdf
    rw [if_pos h1]
    norm_num
  · by_cases h2 : z > 6
    · unfold norm_cdf
      rw [if_neg h1, if_pos h2]
    · rw [norm_cdf_eq_branch h1 h2]
      by_cases hz : z > 0
      · rw [if_pos hz]
        have ht := (normCdfTail_pos z (le_of_lt hz)).le
        linarith
      · rw [if_neg hz]
        have h0 : (0:ℝ) ≤ -z := by linarith [not_lt.mp hz]
        have ht := normCdfTail_le_tail_zero h0
        have th := normCdfTail_zero_lt_half
        linarith

theorem norm_cdf_mono {z1 z2 : ℝ} (h : z1 ≤ z2) :
    norm_cdf z1 ≤ norm_cdf z2 := by
  by_cases ha : z1 < -6
  · have h0 : norm_cdf z1 = 0 := by
      unfold norm_cdf
      rw [if_pos ha]
    rw [h0]
    exact norm_cdf_nonneg z2
  · by_cases hb : z2 > 6
    · have h1 : norm_cdf z2 = 1 := by
        unfold norm_cdf
        rw [if_neg (by linarith [not_lt.mp ha] : ¬z2 < -6), if_pos hb]
      rw [h1]
      exact norm_cdf_le_one z1
    · have hb1 : ¬z1 > 6 := fun hc => hb (lt_of_lt_of_le hc h)
      have ha2 : ¬z2 < -6 := fun hc => ha (lt_of_le_of_lt h hc)
      rw [norm_cdf_eq_branch ha hb1, norm_cdf_eq_branch ha2 hb]
      by_cases hz1 : z1 > 0
      · have hz2 : z2 > 0 := lt_of_lt_of_le hz1 h
        rw [if_pos hz1, if_pos hz2]
        have ht := normCdfTail_anti (le_of_lt hz1) h
        linarith
      · by_cases hz2 : z2 > 0
        · rw [if_neg hz1, if_pos hz2]
          have t1 : normCdfTail (-z1) ≤ normCdfTail 0 :=
            normCdfTail_le_tail_zero (by linarith [not_lt.mp hz1])
          have t2 : normCdfTail z2 ≤ normCdfTail 0 :=
            normCdfTail_le_tail_zero (le_of_lt hz2)
          have th := normCdfTail_zero_lt_half
          linarith
        · rw [if_neg hz1, if_neg hz2]
          exact normCdfTail_anti
            (show (0:ℝ) ≤ -z2 by linarith [not_lt.mp hz2])
            (show -z2 ≤ -z1 by linarith)

theorem norm_cdf_symm (z : ℝ) :
    |norm_cdf (-z) - (1 - norm_cdf z)| ≤ 1e-6 := by
  by_cases h6 : z > 6
  · have hz1 : norm_cdf z = 1 := by
      unfold norm_cdf
      rw [if_neg (by linarith : ¬z < -6), if_pos h6]
    have hz0 : norm_cdf (-z) = 0 := by
      unfold norm_cdf
      rw [if_pos (by linarith : (-z:ℝ) < -6)]
    rw [hz1, hz0]
    norm_num
  · by_cases h6' : z < -6
    · have hz0 : norm_cdf z = 0 := by
        unfold norm_cdf
        rw [if_pos h6']
      have hz1 : norm_cdf (-z) = 1 := by
        unfold norm_cdf
        rw [if_neg (by linarith : ¬(-z:ℝ) < -6), if_pos (by linarith : (-z:ℝ) > 6)]
      rw [hz1, hz0]
      norm_num
    · have hm1 : ¬(-z:ℝ) < -6 := by linarith [not_lt.mp h6]
      have hm2 : ¬(-z:ℝ) > 6 := by linarith [not_lt.mp h6']
      rw [norm_cdf_eq_branch h6' h6, norm_cdf_eq_branch hm1 hm2]
      rcases lt_trichotomy z 0 with hz | hz | hz
      · rw [if_neg (by linarith : ¬z > 0), if_pos (by linarith : (-z:ℝ) > 0)]
        simp
        norm_num
      · subst hz
        rw [if_neg (by norm_num : ¬(0:ℝ) > 0), if_neg (by norm_num : ¬(-0:ℝ) > 0)]
        simp only [neg_zero]
        rw [normCdfTail_zero]
        unfold normCdfPoly
        rw [abs_le]
        norm_num
      · rw [if_pos hz, if_neg (by linarith : ¬(-z:ℝ) > 0), neg_neg]
        simp
        norm_num

theorem erfPoly_pos (t : ℝ) : 0 < erfPoly t := by
  unfold erfPoly
  nlinarith [sq_nonneg (t * (2.122810858 * t - 1.453152027)),
    sq_nonneg (1.742827482 * t - 0.284496736), sq_nonneg t]

theorem Q2d_pos (t : ℝ) : 0 < Q2d t := by
  unfold Q2d
  nlinarith [sq_nonneg (t * (10.61405429 * t - 5.812608108)),
    sq_nonneg (5.128482446 * t - 0.568993472), sq_nonneg t]

theorem Q2fun_hasDerivAt (t : ℝ) : HasDerivAt Q2fun (Q2d t) t := by
  have h2 : HasDerivAt (fun x : ℝ => x ^ 2) (2 * t) t := by
    simpa using hasDerivAt_pow 2 t
  have h3 : HasDerivAt (fun x : ℝ => x ^ 3) (3 * t ^ 2) t := by
    simpa using hasDerivAt_pow 3 t
  have h4 : HasDerivAt (fun x : ℝ => x ^ 4) (4 * t ^ 3) t := by
    simpa using hasDerivAt_pow 4 t
  have h5 : HasDerivAt (fun x : ℝ => x ^ 5) (5 * t ^ 4) t := by
    simpa using hasDerivAt_pow 5 t
  have h1 : HasDerivAt (fun x : ℝ => x) 1 t := hasDerivAt_id t
  have hsum :
      HasDerivAt (fun x : ℝ => 0.254829592 * x + -0.284496736 * x ^ 2 +
        1.421413741 * x ^ 3 + -1.453152027 * x ^ 4 + 1.061405429 * x ^ 5)
      (0.254829592 * 1 + -0.284496736 * (2 * t) + 1.421413741 * (3 * t ^ 2) +
        -1.453152027 * (4 * t ^ 3) + 1.061405429 * (5 * t ^ 4)) t :=
    ((((h1.const_mul (0.254829592:ℝ)).add (h2.const_mul (-0.284496736:ℝ))).add
      (h3.const_mul (1.421413741:ℝ))).add (h4.const_mul (-1.453152027:ℝ))).add
      (h5.const_mul (1.061405429:ℝ))
  have hfun : Q2fun = fun x : ℝ => 0.254829592 * x + -0.284496736 * x ^ 2 +
      1.421413741 * x ^ 3 + -1.453152027 * x ^ 4 + 1.061405429 * x ^ 5 := by
    funext x
    unfold Q2fun erfPoly
    ring
  have hval : Q2d t = 0.254829592 * 1 + -0.284496736 * (2 * t) +
      1.421413741 * (3 * t ^ 2) + -1.453152027 * (4 * t ^ 3) +
      1.061405429 * (5 * t ^ 4) := by
    unfold Q2d
    ring
  rw [hfun, hval]
  exact hsum

theorem Q2fun_strictMono : StrictMono Q2fun :=
  strictMono_of_hasDerivAt_pos Q2fun_hasDerivAt Q2d_pos

theorem normalCdfTail_eq_Q2fun (u : ℝ) :
    normalCdfTail u = Q2fun (1 / (1 + 0.3275911 * u)) * Real.exp (-u * u) :=
  rfl

theorem normalCdfTail_pos (u : ℝ) (hu : 0 ≤ u) : 0 < normalCdfTail u := by
  rw [normalCdfTail_eq_Q2fun]
  have hden : (0:ℝ) < 1 + 0.3275911 * u := by nlinarith
  have hQ : 0 < Q2fun (1 / (1 + 0.3275911 * u)) :=
    mul_pos (erfPoly_pos _) (one_div_pos.mpr hden)
  exact mul_pos hQ (Real.exp_pos _)

theorem normalCdfTail_anti {u1 u2 : ℝ} (h0 : 0 ≤ u1) (h12 : u1 ≤ u2) :
    normalCdfTail u2 ≤ normalCdfTail u1 := by
  rw [normalCdfTail_eq_Q2fun, normalCdfTail_eq_Q2fun]
  have hden1 : (0:ℝ) < 1 + 0.3275911 * u1 := by nlinarith
  have hden2 : (0:ℝ) < 1 + 0.3275911 * u2 := by nlinarith
  have htle : 1 / (1 + 0.3275911 * u2) ≤ 1 / (1 + 0.3275911 * u1) :=
    one_div_le_one_div_of_le hden1 (by nlinarith)
  have hQle : Q2fun (1 / (1 + 0.3275911 * u2)) ≤
      Q2fun (1 / (1 + 0.3275911 * u1)) := Q2fun_strictMono.monotone htle
  have hQ2 : 0 ≤ Q2fun (1 / (1 + 0.3275911 * u2)) :=
    (mul_pos (erfPoly_pos _) (one_div_pos.mpr hden2)).le
  have hE : Real.exp (-u2 * u2) ≤ Real.exp (-u1 * u1) := by
    apply Real.exp_le_exp.mpr
    nlinarith
  exact mul_le_mul hQle hE (Real.exp_pos _).le
    ((mul_pos (erfPoly_pos _) (one_div_pos.mpr hden1)).le)

theorem normalCdfTail_zero : normalCdfTail 0 = erfPoly 1 := by
  unfold normalCdfTail
  norm_num

theorem normalCdfTail_zero_lt_one : normalCdfTail 0 < 1 := by
  rw [normalCdfTail_zero]
  unfold erfPoly
  norm_num

theorem normalCdfTail_le_tail_zero {u : ℝ} (hu : 0 ≤ u) :
    normalCdfTail u ≤ normalCdfTail 0 :=
  normalCdfTail_anti le_rfl hu

theorem normal_cdf_eq_branch (x : ℝ) :
    normal_cdf x = if x < 0 then normalCdfTail (-x / Real.sqrt 2) / 2
      else 1 - normalCdfTail (x / Real.sqrt 2) / 2 := by
  simp only [normal_cdf]
  by_cases hx : x < 0
  · rw [if_pos hx, if_pos hx, abs_of_neg hx]
    unfold normalCdfTail
    ring
  · rw [if_neg hx, if_neg hx, abs_of_nonneg (not_lt.mp hx)]
    unfold normalCdfTail
    ring

theorem normal_cdf_mono {x1 x2 : ℝ} (h : x1 ≤ x2) :
    normal_cdf x1 ≤ normal_cdf x2 := by
  rw [normal_cdf_eq_branch, normal_cdf_eq_branch]
  have hs2 : (0:ℝ) < Real.sqrt 2 := Real.sqrt_pos.mpr (by norm_num)
  by_cases h1 : x1 < 0
  · by_cases h2 : x2 < 0
    · rw [if_pos h1, if_pos h2]
      have ht : normalCdfTail (-x1 / Real.sqrt 2) ≤
          normalCdfTail (-x2 / Real.sqrt 2) :=
        normalCdfTail_anti (div_nonneg (by linarith) hs2.le)
          (by gcongr)
      linarith
    · rw [if_pos h1, if_neg h2]
      have t1 : normalCdfTail (-x1 / Real.sqrt 2) ≤ normalCdfTail 0 :=
        normalCdfTail_le_tail_zero (div_nonneg (by linarith) hs2.le)
      have t2 : normalCdfTail (x2 / Real.sqrt 2) ≤ normalCdfTail 0 :=
        normalCdfTail_le_tail_zero
          (div_nonneg (by linarith [not_lt.mp h2]) hs2.le)
      have th := normalCdfTail_zero_lt_one
      linarith
  · have h2 : ¬x2 < 0 := by
      intro hc
      exact h1 (lt_of_le_of_lt h hc)
    rw [if_neg h1, if_neg h2]
    have ht : normalCdfTail (x2 / Real.sqrt 2) ≤
        normalCdfTail (x1 / Real.sqrt 2) :=
      normalCdfTail_anti (div_nonneg (by linarith [not_lt.mp h1]) hs2.le)
        (by gcongr)
    linarith

theorem normal_cdf_symm (x : ℝ) :
    |normal_cdf (-x) - (1 - normal_cdf x)| ≤ 1e-6 := by
  rw [normal_cdf_eq_branch, normal_cdf_eq_branch]
  rcases lt_trichotomy x 0 with hx | hx | hx
  · rw [if_neg (by linarith : ¬(-x:ℝ) < 0), if_pos hx]
    simp
    norm_num
  · subst hx
    rw [if_neg (by norm_num : ¬(-0:ℝ) < 0), if_neg (by norm_num : ¬(0:ℝ) < 0)]
    simp only [neg_zero]
    rw [zero_div, normalCdfTail_zero]
    unfold erfPoly
    rw [abs_le]
    norm_num
  · rw [if_pos (by linarith : (-x:ℝ) < 0), if_neg (by linarith : ¬x < 0),
      neg_neg]
    simp
    norm_num

/-- C4: both normal-CDF approximations, `norm_cdf` of the BTC/ETH/XRP bots
and `normal_cdf` of the dashboard, are monotone non-decreasing in the
z-score and satisfy the symmetry `Phi(-z) = 1 - Phi(z)` to within 1e-6
(the symmetry is exact except at `z = 0`, where the defect is about
3e-7 for the bots and 1e-9 for the dashboard). -/
theorem norm_cdf_monotone_and_symm :
    (∀ z1 z2 : ℝ, z1 ≤ z2 → norm_cdf z1 ≤ norm_cdf z2) ∧
    (∀ z : ℝ, |norm_cdf (-z) - (1 - norm_cdf z)| ≤ 1e-6) ∧
    (∀ x1 x2 : ℝ, x1 ≤ x2 → normal_cdf x1 ≤ normal_cdf x2) ∧
    (∀ x : ℝ, |normal_cdf (-x) - (1 - normal_cdf x)| ≤ 1e-6) :=
  ⟨fun _ _ h => norm_cdf_mono h, norm_cdf_symm,
   fun _ _ h => normal_cdf_mono h, normal_cdf_symm⟩

/-- C4 witness: monotonicity instantiated at the pair `-1 ≤ 1` for both
approximations. -/
theorem norm_cdf_monotone_and_symm_witness :
    norm_cdf (-1) ≤ norm_cdf 1 ∧ normal_cdf (-1) ≤ normal_cdf 1 :=
  ⟨norm_cdf_monotone_and_symm.1 (-1) 1 (by norm_num),
   norm_cdf_monotone_and_symm.2.2.1 (-1) 1 (by norm_num)⟩

